import Mathlib

/-!
Verification of the symbolic-algebra core (expression tree, canonical
ordering, simplification, differentiation, LaTeX rendering) against its
specification.

The repository contains two generations of the library:
* `src/lib/mod.rs` together with `src/lib/operations.rs` (the current crate),
  plus the newer not-yet-wired files `src/lib/simplify.rs`,
  `src/lib/derivative.rs`, `src/lib/latex.rs`.  These all share the
  twelve-variant expression enum; they are embedded in namespace `Lib`
  (with `Lib.DRs` for `derivative.rs` and `Lib.LRs` for `latex.rs`).
* the older `src/lib.rs`, whose enum has a `Recip` variant and which holds
  the like-term/constant-folding simplifier.  It is embedded in
  namespace `LibOld`.

Rust `isize` arithmetic is modelled as two's-complement wrap-around on
64 bits (`wrapI`), the release-mode semantics of the `+`, `*`, `-`
operators used by the source.
-/

namespace MathProgram

/-- Two's-complement 64-bit wrap of an integer: the value an `isize`
arithmetic operation actually stores in a release build. -/
def wrapI (n : Int) : Int := Int.bmod n (2 ^ 64)

namespace Lib

/-- The expression AST of `src/lib/mod.rs` (enum `Expr`): constants, the
variable `X`, n-ary sums and products, negation, powers and the unary
transcendental functions, in declaration order. -/
inductive Expr : Type
  | Const : Int → Expr
  | X : Expr
  | Sum : List Expr → Expr
  | Prod : List Expr → Expr
  | Neg : Expr → Expr
  | Pow : Expr → Expr → Expr
  | Ln : Expr → Expr
  | Sin : Expr → Expr
  | Cos : Expr → Expr
  | Arcsin : Expr → Expr
  | Arccos : Expr → Expr
  | Arctan : Expr → Expr

namespace Expr

/-- Discriminant rank of a variant, following the declaration order of the
enum; `derive(Ord)` compares discriminants first. -/
def rank : Expr → Nat
  | Const _ => 0
  | X => 1
  | Sum _ => 2
  | Prod _ => 3
  | Neg _ => 4
  | Pow _ _ => 5
  | Ln _ => 6
  | Sin _ => 7
  | Cos _ => 8
  | Arcsin _ => 9
  | Arccos _ => 10
  | Arctan _ => 11

mutual

/-- The derived `Ord` of the `Expr` enum: variants compare by declaration
rank first, payloads lexicographically afterwards. -/
def cmp (a b : Expr) : Ordering :=
  if rank a < rank b then .lt
  else if rank b < rank a then .gt
  else
    match a, b with
    | Const m, Const n => compare m n
    | Sum v, Sum w => cmpList v w
    | Prod v, Prod w => cmpList v w
    | Neg x, Neg y => cmp x y
    | Pow a1 b1, Pow a2 b2 => (cmp a1 a2).then (cmp b1 b2)
    | Ln x, Ln y => cmp x y
    | Sin x, Sin y => cmp x y
    | Cos x, Cos y => cmp x y
    | Arcsin x, Arcsin y => cmp x y
    | Arccos x, Arccos y => cmp x y
    | Arctan x, Arctan y => cmp x y
    | _, _ => .eq

/-- Lexicographic comparison of two child vectors, as `Vec<Expr>`'s `Ord`. -/
def cmpList : List Expr → List Expr → Ordering
  | [], [] => .eq
  | [], _ :: _ => .lt
  | _ :: _, [] => .gt
  | a :: as_, b :: bs => (cmp a b).then (cmpList as_ bs)

end

/-- Composition of `Ordering.then`: the result is `eq` exactly when both
components compare equal. -/
theorem then_eq_eq {x y : Ordering} : x.then y = .eq ↔ x = .eq ∧ y = .eq := by
  cases x <;> simp [Ordering.then]

/-- The `<=` of the derived `Ord`, used by `Vec::sort`. -/
def le (a b : Expr) : Prop := cmp a b ≠ Ordering.gt

instance : DecidableRel le := fun a b => by
  unfold le
  infer_instance

/-- A strictly smaller variant rank decides the comparison. -/
theorem cmp_rank_lt (a b : Expr) (h : rank a < rank b) : cmp a b = .lt := by
  unfold cmp
  rw [if_pos h]

/-- A strictly larger variant rank decides the comparison. -/
theorem cmp_rank_gt (a b : Expr) (h : rank b < rank a) : cmp a b = .gt := by
  unfold cmp
  rw [if_neg (by omega), if_pos h]

/-- A comparison that comes out `lt` never has a larger left rank. -/
theorem cmp_lt_rank_le (a b : Expr) (h : cmp a b = .lt) : rank a ≤ rank b := by
  unfold cmp at h
  split at h
  · omega
  · split at h
    · exact absurd h (by simp)
    · omega

theorem cmp_const (m n : Int) : cmp (Const m) (Const n) = compare m n := rfl

theorem cmp_X : cmp X X = .eq := rfl

theorem cmp_sum (v w : List Expr) : cmp (Sum v) (Sum w) = cmpList v w := rfl

theorem cmp_prod (v w : List Expr) : cmp (Prod v) (Prod w) = cmpList v w := rfl

theorem cmp_neg (x y : Expr) : cmp (Neg x) (Neg y) = cmp x y := by
  rfl

theorem cmp_pow (a1 b1 a2 b2 : Expr) :
    cmp (Pow a1 b1) (Pow a2 b2) = (cmp a1 a2).then (cmp b1 b2) := by
  rfl

theorem cmp_ln (x y : Expr) : cmp (Ln x) (Ln y) = cmp x y := by
  rfl

theorem cmp_sin (x y : Expr) : cmp (Sin x) (Sin y) = cmp x y := by
  rfl

theorem cmp_cos (x y : Expr) : cmp (Cos x) (Cos y) = cmp x y := by
  rfl

theorem cmp_arcsin (x y : Expr) : cmp (Arcsin x) (Arcsin y) = cmp x y := by
  rfl

theorem cmp_arccos (x y : Expr) : cmp (Arccos x) (Arccos y) = cmp x y := by
  rfl

theorem cmp_arctan (x y : Expr) : cmp (Arctan x) (Arctan y) = cmp x y := by
  rfl

/-- Distinct variant ranks make both sides of the equality criterion false. -/
theorem cmp_eq_iff_offdiag (a b : Expr) (h : rank a ≠ rank b) :
    cmp a b = .eq ↔ a = b := by
  constructor
  · intro he
    rcases Nat.lt_trichotomy (rank a) (rank b) with hl | he2 | hg
    · rw [cmp_rank_lt a b hl] at he
      exact absurd he (by simp)
    · exact absurd he2 h
    · rw [cmp_rank_gt a b hg] at he
      exact absurd he (by simp)
  · intro he
    subst he
    exact absurd rfl h

mutual

/-- The derived structural comparison returns `eq` exactly on equal trees. -/
theorem cmp_eq_iff (a b : Expr) : cmp a b = .eq ↔ a = b := by
  cases a <;> cases b <;>
    first
    | exact cmp_eq_iff_offdiag _ _ (of_decide_eq_true rfl)
    | skip
  case Const.Const m n =>
    rw [cmp_const]
    simp [compare_eq_iff_eq]
  case X.X =>
    rw [cmp_X]
    simp
  case Sum.Sum v w =>
    rw [cmp_sum, cmpList_eq_iff v w]
    simp
  case Prod.Prod v w =>
    rw [cmp_prod, cmpList_eq_iff v w]
    simp
  case Neg.Neg x y =>
    rw [cmp_neg, cmp_eq_iff x y]
    simp
  case Pow.Pow a1 b1 a2 b2 =>
    rw [cmp_pow]
    simp [then_eq_eq, cmp_eq_iff a1 a2, cmp_eq_iff b1 b2]
  case Ln.Ln x y =>
    rw [cmp_ln, cmp_eq_iff x y]
    simp
  case Sin.Sin x y =>
    rw [cmp_sin, cmp_eq_iff x y]
    simp
  case Cos.Cos x y =>
    rw [cmp_cos, cmp_eq_iff x y]
    simp
  case Arcsin.Arcsin x y =>
    rw [cmp_arcsin, cmp_eq_iff x y]
    simp
  case Arccos.Arccos x y =>
    rw [cmp_arccos, cmp_eq_iff x y]
    simp
  case Arctan.Arctan x y =>
    rw [cmp_arctan, cmp_eq_iff x y]
    simp
termination_by (sizeOf a + sizeOf b)

/-- Lexicographic list comparison returns `eq` exactly on equal lists. -/
theorem cmpList_eq_iff (v w : List Expr) : cmpList v w = .eq ↔ v = w := by
  cases v <;> cases w <;> try (simp [cmpList]; done)
  case cons.cons a as_ b bs =>
    simp [cmpList, then_eq_eq, cmp_eq_iff a b, cmpList_eq_iff as_ bs]
termination_by (sizeOf v + sizeOf w)

end

instance : DecidableEq Expr := fun a b =>
  decidable_of_iff (cmp a b = .eq) (cmp_eq_iff a b)

/-- Swapping the arguments of an integer comparison swaps the outcome. -/
theorem intCompare_swap (m n : Int) : (compare m n).swap = compare n m := by
  rcases lt_trichotomy m n with h | h | h
  · simp [compare_lt_iff_lt.2 h, compare_gt_iff_gt.2 h, Ordering.swap]
  · subst h
    simp [compare_eq_iff_eq.2 rfl, Ordering.swap]
  · simp [compare_gt_iff_gt.2 h, compare_lt_iff_lt.2 h, Ordering.swap]

/-- Swap identity for comparisons decided by a smaller left rank. -/
theorem cmp_swap_rank_lt (a b : Expr) (h : rank a < rank b) :
    (cmp a b).swap = cmp b a := by
  rw [cmp_rank_lt a b h, cmp_rank_gt b a h]
  rfl

/-- Swap identity for comparisons decided by a larger left rank. -/
theorem cmp_swap_rank_gt (a b : Expr) (h : rank b < rank a) :
    (cmp a b).swap = cmp b a := by
  rw [cmp_rank_gt a b h, cmp_rank_lt b a h]
  rfl

mutual

/-- Swapping the arguments of the derived comparison swaps the outcome. -/
theorem cmp_swap (a b : Expr) : (cmp a b).swap = cmp b a := by
  cases a <;> cases b <;>
    first
    | exact cmp_swap_rank_lt _ _ (of_decide_eq_true rfl)
    | exact cmp_swap_rank_gt _ _ (of_decide_eq_true rfl)
    | skip
  case Const.Const m n =>
    rw [cmp_const, cmp_const, intCompare_swap]
  case X.X =>
    rw [cmp_X]
    rfl
  case Sum.Sum v w =>
    rw [cmp_sum, cmp_sum, cmpList_swap v w]
  case Prod.Prod v w =>
    rw [cmp_prod, cmp_prod, cmpList_swap v w]
  case Neg.Neg x y =>
    rw [cmp_neg, cmp_neg, cmp_swap x y]
  case Pow.Pow a1 b1 a2 b2 =>
    rw [cmp_pow, cmp_pow, Ordering.swap_then, cmp_swap a1 a2, cmp_swap b1 b2]
  case Ln.Ln x y =>
    rw [cmp_ln, cmp_ln, cmp_swap x y]
  case Sin.Sin x y =>
    rw [cmp_sin, cmp_sin, cmp_swap x y]
  case Cos.Cos x y =>
    rw [cmp_cos, cmp_cos, cmp_swap x y]
  case Arcsin.Arcsin x y =>
    rw [cmp_arcsin, cmp_arcsin, cmp_swap x y]
  case Arccos.Arccos x y =>
    rw [cmp_arccos, cmp_arccos, cmp_swap x y]
  case Arctan.Arctan x y =>
    rw [cmp_arctan, cmp_arctan, cmp_swap x y]
termination_by (sizeOf a + sizeOf b)

/-- Swapping the arguments of the list comparison swaps the outcome. -/
theorem cmpList_swap (v w : List Expr) : (cmpList v w).swap = cmpList w v := by
  cases v <;> cases w <;> try rfl
  case cons.cons a as_ b bs =>
    show ((cmp a b).then (cmpList as_ bs)).swap = (cmp b a).then (cmpList bs as_)
    rw [Ordering.swap_then, cmp_swap a b, cmpList_swap as_ bs]
termination_by (sizeOf v + sizeOf w)

end

/-- Composition of `Ordering.then`: the result is `lt` when the first
component is `lt`, or ties and the second is `lt`. -/
theorem then_eq_lt {x y : Ordering} : x.then y = .lt ↔ x = .lt ∨ (x = .eq ∧ y = .lt) := by
  cases x <;> simp [Ordering.then]

mutual

/-- Strict transitivity of the derived comparison. -/
theorem cmp_lt_trans (a b c : Expr) (h1 : cmp a b = .lt) (h2 : cmp b c = .lt) :
    cmp a c = .lt := by
  have hab := cmp_lt_rank_le a b h1
  have hbc := cmp_lt_rank_le b c h2
  rcases Nat.lt_or_ge (rank a) (rank c) with hac | hac
  · exact cmp_rank_lt a c hac
  · exact cmp_lt_trans_core a b c h1 h2 (by omega) (by omega)

/-- Strict transitivity of the derived comparison when all three arguments
carry the same variant rank. -/
theorem cmp_lt_trans_core (a b c : Expr) (h1 : cmp a b = .lt) (h2 : cmp b c = .lt)
    (e1 : rank a = rank b) (e2 : rank b = rank c) : cmp a c = .lt := by
  cases a <;> cases b <;> try (simp [rank] at e1; done)
  case Const.Const m n =>
    cases c <;> try (simp [rank] at e2; done)
    case Const k =>
      rw [cmp_const] at h1 h2 ⊢
      rw [compare_lt_iff_lt] at h1 h2 ⊢
      omega
  case X.X =>
    rw [cmp_X] at h1
    exact absurd h1 (by simp)
  case Sum.Sum u v =>
    cases c <;> try (simp [rank] at e2; done)
    case Sum w =>
      rw [cmp_sum] at h1 h2 ⊢
      exact cmpList_lt_trans u v w h1 h2
  case Prod.Prod u v =>
    cases c <;> try (simp [rank] at e2; done)
    case Prod w =>
      rw [cmp_prod] at h1 h2 ⊢
      exact cmpList_lt_trans u v w h1 h2
  case Neg.Neg x y =>
    cases c <;> try (simp [rank] at e2; done)
    case Neg z =>
      rw [cmp_neg] at h1 h2 ⊢
      exact cmp_lt_trans x y z h1 h2
  case Pow.Pow a1 b1 a2 b2 =>
    cases c <;> try (simp [rank] at e2; done)
    case Pow a3 b3 =>
      rw [cmp_pow] at h1 h2 ⊢
      rcases then_eq_lt.1 h1 with g1 | ⟨f1, g1⟩ <;> rcases then_eq_lt.1 h2 with g2 | ⟨f2, g2⟩
      · exact then_eq_lt.2 (.inl (cmp_lt_trans a1 a2 a3 g1 g2))
      · rw [cmp_eq_iff] at f2
        subst f2
        exact then_eq_lt.2 (.inl g1)
      · rw [cmp_eq_iff] at f1
        subst f1
        exact then_eq_lt.2 (.inl g2)
      · rw [cmp_eq_iff] at f1 f2
        subst f1
        subst f2
        exact then_eq_lt.2 (.inr ⟨(cmp_eq_iff _ _).2 rfl, cmp_lt_trans b1 b2 b3 g1 g2⟩)
  case Ln.Ln x y =>
    cases c <;> try (simp [rank] at e2; done)
    case Ln z =>
      rw [cmp_ln] at h1 h2 ⊢
      exact cmp_lt_trans x y z h1 h2
  case Sin.Sin x y =>
    cases c <;> try (simp [rank] at e2; done)
    case Sin z =>
      rw [cmp_sin] at h1 h2 ⊢
      exact cmp_lt_trans x y z h1 h2
  case Cos.Cos x y =>
    cases c <;> try (simp [rank] at e2; done)
    case Cos z =>
      rw [cmp_cos] at h1 h2 ⊢
      exact cmp_lt_trans x y z h1 h2
  case Arcsin.Arcsin x y =>
    cases c <;> try (simp [rank] at e2; done)
    case Arcsin z =>
      rw [cmp_arcsin] at h1 h2 ⊢
      exact cmp_lt_trans x y z h1 h2
  case Arccos.Arccos x y =>
    cases c <;> try (simp [rank] at e2; done)
    case Arccos z =>
      rw [cmp_arccos] at h1 h2 ⊢
      exact cmp_lt_trans x y z h1 h2
  case Arctan.Arctan x y =>
    cases c <;> try (simp [rank] at e2; done)
    case Arctan z =>
      rw [cmp_arctan] at h1 h2 ⊢
      exact cmp_lt_trans x y z h1 h2

/-- Strict transitivity of the list comparison. -/
theorem cmpList_lt_trans (u v w : List Expr) (h1 : cmpList u v = .lt)
    (h2 : cmpList v w = .lt) : cmpList u w = .lt := by
  cases u <;> cases v <;> cases w <;> try (simp_all [cmpList]; done)
  case cons.cons.cons a as_ b bs c cs =>
    simp only [cmpList] at h1 h2 ⊢
    rcases then_eq_lt.1 h1 with g1 | ⟨f1, g1⟩ <;> rcases then_eq_lt.1 h2 with g2 | ⟨f2, g2⟩
    · exact then_eq_lt.2 (.inl (cmp_lt_trans a b c g1 g2))
    · rw [cmp_eq_iff] at f2
      subst f2
      exact then_eq_lt.2 (.inl g1)
    · rw [cmp_eq_iff] at f1
      subst f1
      exact then_eq_lt.2 (.inl g2)
    · rw [cmp_eq_iff] at f1 f2
      subst f1
      subst f2
      exact then_eq_lt.2 (.inr ⟨(cmp_eq_iff _ _).2 rfl, cmpList_lt_trans as_ bs cs g1 g2⟩)

end

/-- The derived `<=` holds exactly when the comparison is `lt` or the trees
are equal. -/
theorem le_iff (a b : Expr) : le a b ↔ cmp a b = .lt ∨ a = b := by
  rw [← cmp_eq_iff a b]
  unfold le
  cases hc : cmp a b <;> simp

instance : IsTrans Expr le := by
  constructor
  intro a b c h1 h2
  rcases (le_iff a b).1 h1 with g1 | rfl
  · rcases (le_iff b c).1 h2 with g2 | rfl
    · exact (le_iff a c).2 (.inl (cmp_lt_trans a b c g1 g2))
    · exact h1
  · exact h2

instance : IsTotal Expr le := by
  constructor
  intro a b
  by_cases h : cmp a b = .gt
  · right
    unfold le
    rw [← cmp_swap a b, h]
    simp [Ordering.swap]
  · left
    exact h

/-- The model of `Vec::sort` on child vectors: a stable sort by the derived
order (insertion sort is stable, matching the stable Rust sort). -/
def sortE (v : List Expr) : List Expr := List.insertionSort le v

theorem sortE_sorted (v : List Expr) : List.Sorted le (sortE v) :=
  List.sorted_insertionSort le v

theorem sortE_of_sorted {v : List Expr} (h : List.Sorted le v) : sortE v = v :=
  h.insertionSort_eq

theorem sortE_perm (v : List Expr) : List.Perm (sortE v) v :=
  List.perm_insertionSort le v

/-- `Add for Expr` (src/lib/operations.rs): pushes onto an existing `Sum`
on the left, otherwise builds a two-element `Sum`; the right operand is
never inspected. -/
def add (a rhs : Expr) : Expr :=
  Sum (match a with
    | Sum v => v ++ [rhs]
    | _ => [a, rhs])

/-- `Mul for Expr` (src/lib/operations.rs): pushes onto an existing `Prod`
on the left, otherwise builds a two-element `Prod`. -/
def mul (a rhs : Expr) : Expr :=
  Prod (match a with
    | Prod v => v ++ [rhs]
    | _ => [a, rhs])

/-- `Neg for Expr` (src/lib/operations.rs): double negation collapses at
construction time. -/
def neg : Expr → Expr
  | Neg e => e
  | a => Neg a

/-- `Sub for Expr` (src/lib/operations.rs): addition of the negation. -/
def sub (a rhs : Expr) : Expr := add a (neg rhs)

/-- `Expr::recip` (src/lib/mod.rs): the reciprocal flips the exponent of a
power and wraps anything else in `Pow(_, Const(-1))`. -/
def recip : Expr → Expr
  | Pow a b => Pow a (neg b)
  | e => Pow e (Const (-1))

/-- `Div for Expr` (src/lib/operations.rs): multiplication by the
reciprocal. -/
def div (a rhs : Expr) : Expr := mul a (recip rhs)

/-- `Expr::ln` (src/lib/mod.rs). -/
def ln (a : Expr) : Expr := Ln a

/-- Modelled from the spec: `Expr::pow` is called by `src/lib/derivative.rs`
but defined nowhere under `src/`; by the §4.1 constructor contract the
method `a.pow(b)` builds the plain power node `Pow(a, b)`. -/
def pow (a b : Expr) : Expr := Pow a b

/-- `Add<Num> for Expr` (the `apply_num!` macro): `e + n = e + Const(n)`. -/
def addNum (a : Expr) (n : Int) : Expr := add a (Const n)

/-- `Div<Num> for Expr` (the `apply_num!` macro): `e / n = e / Const(n)`. -/
def divNum (a : Expr) (n : Int) : Expr := div a (Const n)

/-- `Add<Expr> for Num` (the `apply_to_num!` macro): `n + e = Const(n) + e`. -/
def numAdd (n : Int) (b : Expr) : Expr := add (Const n) b

/-- `Sub<Expr> for Num` (the `apply_to_num!` macro): `n - e = Const(n) - e`. -/
def numSub (n : Int) (b : Expr) : Expr := sub (Const n) b

/-- `Div<Expr> for Num` (the `apply_to_num!` macro): `n / e = Const(n) / e`. -/
def numDiv (n : Int) (b : Expr) : Expr := div (Const n) b

/-- `Expr::simplify_singleton` (src/lib/mod.rs): an empty `Sum`/`Prod`
becomes `Const(0)`, a one-element `Sum`/`Prod` becomes its element. -/
def simplify_singleton : Expr → Expr
  | Sum [] => Const 0
  | Sum [x] => x
  | Prod [] => Const 0
  | Prod [x] => x
  | e => e

/-- `Expr::simplify_zero_pow` (src/lib/mod.rs): `a^0` becomes `1`. -/
def simplify_zero_pow : Expr → Expr
  | Pow a b => if b = Const 0 then Const 1 else Pow a b
  | e => e

/-- `Expr::simplify_one_pow` (src/lib/mod.rs): `a^1` becomes `a`. -/
def simplify_one_pow : Expr → Expr
  | Pow a b => if b = Const 1 then a else Pow a b
  | e => e

/-- `Expr::simplify_negative_consts` (src/lib/mod.rs): `Neg(Const(c))`
becomes `Const(-c)`, with the `isize` negation wrapping in release mode. -/
def simplify_negative_consts : Expr → Expr
  | Neg (Const c) => Const (wrapI (-c))
  | e => e

/-- The trailing match of `Expr::simplify` (src/lib/mod.rs, lines 161-169):
re-sort the children of a `Sum` or `Prod`. -/
def postSort : Expr → Expr
  | Sum v => Sum (sortE v)
  | Prod v => Prod (sortE v)
  | e => e

mutual

/-- `Expr::simplify` (src/lib/mod.rs): simplify the children of a `Sum`,
`Prod` or `Pow`, apply that node's local rules, then sort `Sum`/`Prod`
children; a `Neg` only gets the negative-constant rule, and every other
variant is returned untouched. -/
def simplify : Expr → Expr
  | Sum v => postSort (simplify_singleton (Sum (simplifyList v)))
  | Prod v => postSort (simplify_singleton (Prod (simplifyList v)))
  | Pow a b =>
      postSort (simplify_one_pow (simplify_zero_pow (Pow (simplify a) (simplify b))))
  | Neg x => postSort (simplify_negative_consts (Neg x))
  | e => postSort e

/-- Simplification mapped over a child vector. -/
def simplifyList : List Expr → List Expr
  | [] => []
  | x :: xs => simplify x :: simplifyList xs

end

/-- `Expr::simplify_terms` (src/lib/mod.rs): simplify every child of a
`Sum`, `Prod`, `Pow` or `Neg`; other variants are untouched. -/
def simplify_terms : Expr → Expr
  | Sum v => Sum (simplifyList v)
  | Prod v => Prod (simplifyList v)
  | Pow a b => Pow (simplify a) (simplify b)
  | Neg x => Neg (simplify x)
  | e => e

theorem simplifyList_eq_map (l : List Expr) : simplifyList l = l.map simplify := by
  induction l with
  | nil => rfl
  | cons x xs ih => simp [simplifyList, ih]

/-- A child vector is fixed by `simplifyList` exactly when each member is a
fixed point of `simplify`. -/
theorem simplifyList_fixed_iff (l : List Expr) :
    simplifyList l = l ↔ ∀ x ∈ l, simplify x = x := by
  induction l with
  | nil => simp [simplifyList]
  | cons x xs ih => simp [simplifyList, ih, List.forall_mem_cons]

theorem postSort_idem (e : Expr) : postSort (postSort e) = postSort e := by
  cases e <;> simp [postSort, sortE_of_sorted (sortE_sorted _)]

/-- Every branch of `simplify` ends in the re-sorting match, so its output
is unchanged by another application of that match. -/
theorem postSort_simplify (e : Expr) : postSort (simplify e) = simplify e := by
  cases e <;> simp only [simplify] <;> exact postSort_idem _

theorem simplify_singleton_sum_len2 (l : List Expr) (h : 2 ≤ l.length) :
    simplify_singleton (Sum l) = Sum l := by
  match l with
  | x :: y :: rest => rfl

theorem simplify_singleton_prod_len2 (l : List Expr) (h : 2 ≤ l.length) :
    simplify_singleton (Prod l) = Prod l := by
  match l with
  | x :: y :: rest => rfl

/-- A sorted `Sum` of at least two simplify-fixed children is itself a
fixed point of `simplify`. -/
theorem simplify_sum_sorted_fixed (l : List Expr) (h2 : 2 ≤ l.length)
    (hfix : ∀ x ∈ l, simplify x = x) (hs : List.Sorted le l) :
    simplify (Sum l) = Sum l := by
  have hl : simplifyList l = l := (simplifyList_fixed_iff l).2 hfix
  simp only [simplify, hl, simplify_singleton_sum_len2 l h2, postSort, sortE_of_sorted hs]

/-- A sorted `Prod` of at least two simplify-fixed children is itself a
fixed point of `simplify`. -/
theorem simplify_prod_sorted_fixed (l : List Expr) (h2 : 2 ≤ l.length)
    (hfix : ∀ x ∈ l, simplify x = x) (hs : List.Sorted le l) :
    simplify (Prod l) = Prod l := by
  have hl : simplifyList l = l := (simplifyList_fixed_iff l).2 hfix
  simp only [simplify, hl, simplify_singleton_prod_len2 l h2, postSort, sortE_of_sorted hs]

mutual

/-- Idempotence of the mod.rs simplifier. -/
theorem simplify_idem (e : Expr) : simplify (simplify e) = simplify e := by
  cases e
  case Const n => rfl
  case X => rfl
  case Sum v =>
    have hfix : ∀ x ∈ simplifyList v, simplify x = x :=
      (simplifyList_fixed_iff _).1 (simplifyList_idem v)
    show simplify (postSort (simplify_singleton (Sum (simplifyList v))))
        = postSort (simplify_singleton (Sum (simplifyList v)))
    rcases hv : simplifyList v with _ | ⟨x, _ | ⟨y, rest⟩⟩
    · rfl
    · rw [hv] at hfix
      have hx : simplify x = x := hfix x (by simp)
      have hps : postSort x = x := by
        calc postSort x = postSort (simplify x) := by rw [hx]
          _ = simplify x := postSort_simplify x
          _ = x := hx
      rw [show simplify_singleton (Sum [x]) = x from rfl, hps, hx]
    · rw [hv] at hfix
      rw [show simplify_singleton (Sum (x :: y :: rest)) = Sum (x :: y :: rest) from rfl,
        show postSort (Sum (x :: y :: rest)) = Sum (sortE (x :: y :: rest)) from rfl]
      refine simplify_sum_sorted_fixed _ ?_ ?_ (sortE_sorted _)
      · have := (sortE_perm (x :: y :: rest)).length_eq
        simp only [this]
        simp
      · intro z hz
        exact hfix z ((sortE_perm _).mem_iff.1 hz)
  case Prod v =>
    have hfix : ∀ x ∈ simplifyList v, simplify x = x :=
      (simplifyList_fixed_iff _).1 (simplifyList_idem v)
    show simplify (postSort (simplify_singleton (Prod (simplifyList v))))
        = postSort (simplify_singleton (Prod (simplifyList v)))
    rcases hv : simplifyList v with _ | ⟨x, _ | ⟨y, rest⟩⟩
    · rfl
    · rw [hv] at hfix
      have hx : simplify x = x := hfix x (by simp)
      have hps : postSort x = x := by
        calc postSort x = postSort (simplify x) := by rw [hx]
          _ = simplify x := postSort_simplify x
          _ = x := hx
      rw [show simplify_singleton (Prod [x]) = x from rfl, hps, hx]
    · rw [hv] at hfix
      rw [show simplify_singleton (Prod (x :: y :: rest)) = Prod (x :: y :: rest) from rfl,
        show postSort (Prod (x :: y :: rest)) = Prod (sortE (x :: y :: rest)) from rfl]
      refine simplify_prod_sorted_fixed _ ?_ ?_ (sortE_sorted _)
      · have := (sortE_perm (x :: y :: rest)).length_eq
        simp only [this]
        simp
      · intro z hz
        exact hfix z ((sortE_perm _).mem_iff.1 hz)
  case Pow a b =>
    have ha := simplify_idem a
    have hb := simplify_idem b
    by_cases h0 : simplify b = Const 0
    · show simplify (postSort (simplify_one_pow (simplify_zero_pow (Pow (simplify a) (simplify b)))))
        = postSort (simplify_one_pow (simplify_zero_pow (Pow (simplify a) (simplify b))))
      rw [h0]
      rfl
    · by_cases h1 : simplify b = Const 1
      · show simplify (postSort (simplify_one_pow (simplify_zero_pow (Pow (simplify a) (simplify b)))))
          = postSort (simplify_one_pow (simplify_zero_pow (Pow (simplify a) (simplify b))))
        rw [h1, show simplify_one_pow (simplify_zero_pow (Pow (simplify a) (Const 1)))
            = simplify a from rfl, postSort_simplify a, ha]
      · have hz : simplify_zero_pow (Pow (simplify a) (simplify b)) = Pow (simplify a) (simplify b) := by
          simp [simplify_zero_pow, h0]
        have ho : simplify_one_pow (Pow (simplify a) (simplify b)) = Pow (simplify a) (simplify b) := by
          simp [simplify_one_pow, h1]
        show simplify (postSort (simplify_one_pow (simplify_zero_pow (Pow (simplify a) (simplify b)))))
          = postSort (simplify_one_pow (simplify_zero_pow (Pow (simplify a) (simplify b))))
        rw [hz, ho, show postSort (Pow (simplify a) (simplify b)) = Pow (simplify a) (simplify b) from rfl]
        show postSort (simplify_one_pow (simplify_zero_pow (Pow (simplify (simplify a)) (simplify (simplify b)))))
          = Pow (simplify a) (simplify b)
        rw [ha, hb, hz, ho]
        rfl
  case Neg x => cases x <;> rfl
  case Ln x => rfl
  case Sin x => rfl
  case Cos x => rfl
  case Arcsin x => rfl
  case Arccos x => rfl
  case Arctan x => rfl
termination_by sizeOf e

/-- Idempotence of the simplifier on child vectors. -/
theorem simplifyList_idem (l : List Expr) : simplifyList (simplifyList l) = simplifyList l := by
  cases l with
  | nil => rfl
  | cons x xs =>
    simp only [simplifyList]
    rw [simplify_idem x, simplifyList_idem xs]
termination_by sizeOf l

end

theorem simplifyList_eq_single {v : List Expr} {x : Expr} (h : simplifyList v = [x]) :
    ∃ y, v = [y] ∧ simplify y = x := by
  cases v with
  | nil => simp [simplifyList] at h
  | cons z zs =>
    cases zs with
    | nil =>
      simp only [simplifyList, List.cons.injEq] at h
      exact ⟨z, rfl, h.1⟩
    | cons w ws => simp [simplifyList] at h

/-- The children of a node, each required to be a `simplify` fixed point;
trivially true for leaves, `Neg` and the transcendental wrappers. -/
def childrenFixed : Expr → Prop
  | Sum w => ∀ x ∈ w, simplify x = x
  | Prod w => ∀ x ∈ w, simplify x = x
  | Pow c d => simplify c = c ∧ simplify d = d
  | _ => True

/-- Post-order behaviour of the mod.rs simplifier on the variants it
recurses into: every `Sum`, `Prod` or `Pow` it returns carries fully
simplified children. -/
theorem childrenFixed_simplify (e : Expr) : childrenFixed (simplify e) := by
  cases e
  case Const n => trivial
  case X => trivial
  case Sum v =>
    have hfix : ∀ x ∈ simplifyList v, simplify x = x :=
      (simplifyList_fixed_iff _).1 (simplifyList_idem v)
    show childrenFixed (postSort (simplify_singleton (Sum (simplifyList v))))
    rcases hv : simplifyList v with _ | ⟨x, _ | ⟨y, rest⟩⟩
    · trivial
    · obtain ⟨y, hy, hxy⟩ := simplifyList_eq_single hv
      have hps : postSort x = x := by
        rw [← hxy, postSort_simplify]
      rw [show simplify_singleton (Sum [x]) = x from rfl, hps, ← hxy]
      exact childrenFixed_simplify y
    · rw [hv] at hfix
      rw [show simplify_singleton (Sum (x :: y :: rest)) = Sum (x :: y :: rest) from rfl,
        show postSort (Sum (x :: y :: rest)) = Sum (sortE (x :: y :: rest)) from rfl]
      intro z hz
      exact hfix z ((sortE_perm _).mem_iff.1 hz)
  case Prod v =>
    have hfix : ∀ x ∈ simplifyList v, simplify x = x :=
      (simplifyList_fixed_iff _).1 (simplifyList_idem v)
    show childrenFixed (postSort (simplify_singleton (Prod (simplifyList v))))
    rcases hv : simplifyList v with _ | ⟨x, _ | ⟨y, rest⟩⟩
    · trivial
    · obtain ⟨y, hy, hxy⟩ := simplifyList_eq_single hv
      have hps : postSort x = x := by
        rw [← hxy, postSort_simplify]
      rw [show simplify_singleton (Prod [x]) = x from rfl, hps, ← hxy]
      exact childrenFixed_simplify y
    · rw [hv] at hfix
      rw [show simplify_singleton (Prod (x :: y :: rest)) = Prod (x :: y :: rest) from rfl,
        show postSort (Prod (x :: y :: rest)) = Prod (sortE (x :: y :: rest)) from rfl]
      intro z hz
      exact hfix z ((sortE_perm _).mem_iff.1 hz)
  case Pow a b =>
    show childrenFixed (postSort (simplify_one_pow (simplify_zero_pow (Pow (simplify a) (simplify b)))))
    by_cases h0 : simplify b = Const 0
    · rw [h0]
      trivial
    · by_cases h1 : simplify b = Const 1
      · rw [h1, show simplify_one_pow (simplify_zero_pow (Pow (simplify a) (Const 1)))
            = simplify a from rfl, postSort_simplify a]
        exact childrenFixed_simplify a
      · have hz : simplify_zero_pow (Pow (simplify a) (simplify b)) = Pow (simplify a) (simplify b) := by
          simp [simplify_zero_pow, h0]
        have ho : simplify_one_pow (Pow (simplify a) (simplify b)) = Pow (simplify a) (simplify b) := by
          simp [simplify_one_pow, h1]
        rw [hz, ho, show postSort (Pow (simplify a) (simplify b)) = Pow (simplify a) (simplify b) from rfl]
        exact ⟨simplify_idem a, simplify_idem b⟩
  case Neg x => cases x <;> trivial
  case Ln x => trivial
  case Sin x => trivial
  case Cos x => trivial
  case Arcsin x => trivial
  case Arccos x => trivial
  case Arctan x => trivial
termination_by sizeOf e

/-- Non-decreasing order of a child vector under the derived `<=`, as a
computable check. -/
def sortedB : List Expr → Bool
  | [] => true
  | [_] => true
  | a :: b :: rest => decide (le a b) && sortedB (b :: rest)

mutual

/-- Every `Sum`/`Prod` node anywhere in the tree has sorted children. -/
def allSorted : Expr → Bool
  | Sum v => sortedB v && allSortedList v
  | Prod v => sortedB v && allSortedList v
  | Neg e => allSorted e
  | Pow a b => allSorted a && allSorted b
  | Ln e => allSorted e
  | Sin e => allSorted e
  | Cos e => allSorted e
  | Arcsin e => allSorted e
  | Arccos e => allSorted e
  | Arctan e => allSorted e
  | _ => true

/-- `allSorted` over a child vector. -/
def allSortedList : List Expr → Bool
  | [] => true
  | x :: xs => allSorted x && allSortedList xs

end

mutual

/-- Every `Sum`/`Prod` node reachable from the root through `Sum`, `Prod`
and `Pow` nodes only has sorted children; subtrees under `Neg` or a
transcendental wrapper are not inspected. -/
def spineSorted : Expr → Bool
  | Sum v => sortedB v && spineSortedList v
  | Prod v => sortedB v && spineSortedList v
  | Pow a b => spineSorted a && spineSorted b
  | _ => true

/-- `spineSorted` over a child vector. -/
def spineSortedList : List Expr → Bool
  | [] => true
  | x :: xs => spineSorted x && spineSortedList xs

end

theorem sortedB_of_sorted : ∀ {l : List Expr}, List.Sorted le l → sortedB l = true
  | [], _ => rfl
  | [_], _ => rfl
  | a :: b :: rest, h => by
    rw [List.sorted_cons] at h
    simp only [sortedB, Bool.and_eq_true, decide_eq_true_eq]
    exact ⟨h.1 b (by simp), sortedB_of_sorted h.2⟩

theorem spineSortedList_iff (l : List Expr) :
    spineSortedList l = true ↔ ∀ x ∈ l, spineSorted x = true := by
  induction l with
  | nil => simp [spineSortedList]
  | cons x xs ih => simp [spineSortedList, ih, List.forall_mem_cons]

/-- Canonical-order stability along the recursion spine: after the mod.rs
`simplify`, every `Sum` or `Prod` reachable through `Sum`/`Prod`/`Pow`
nodes has its children in non-decreasing canonical order. -/
theorem spineSorted_simplify (e : Expr) : spineSorted (simplify e) = true := by
  cases e
  case Const n => rfl
  case X => rfl
  case Sum v =>
    show spineSorted (postSort (simplify_singleton (Sum (simplifyList v)))) = true
    rcases hv : simplifyList v with _ | ⟨x, _ | ⟨y, rest⟩⟩
    · rfl
    · obtain ⟨y, hy, hxy⟩ := simplifyList_eq_single hv
      have hps : postSort x = x := by
        rw [← hxy, postSort_simplify]
      rw [show simplify_singleton (Sum [x]) = x from rfl, hps, ← hxy]
      exact spineSorted_simplify y
    · rw [show simplify_singleton (Sum (x :: y :: rest)) = Sum (x :: y :: rest) from rfl,
        show postSort (Sum (x :: y :: rest)) = Sum (sortE (x :: y :: rest)) from rfl]
      simp only [spineSorted, Bool.and_eq_true]
      refine ⟨sortedB_of_sorted (sortE_sorted _), ?_⟩
      rw [spineSortedList_iff]
      intro z hz
      have hzw : z ∈ (x :: y :: rest) := (sortE_perm _).mem_iff.1 hz
      have : z ∈ simplifyList v := by
        rw [hv]
        exact hzw
      rw [simplifyList_eq_map] at this
      obtain ⟨w, hw, hws⟩ := List.mem_map.1 this
      rw [← hws]
      exact spineSorted_simplify w
  case Prod v =>
    show spineSorted (postSort (simplify_singleton (Prod (simplifyList v)))) = true
    rcases hv : simplifyList v with _ | ⟨x, _ | ⟨y, rest⟩⟩
    · rfl
    · obtain ⟨y, hy, hxy⟩ := simplifyList_eq_single hv
      have hps : postSort x = x := by
        rw [← hxy, postSort_simplify]
      rw [show simplify_singleton (Prod [x]) = x from rfl, hps, ← hxy]
      exact spineSorted_simplify y
    · rw [show simplify_singleton (Prod (x :: y :: rest)) = Prod (x :: y :: rest) from rfl,
        show postSort (Prod (x :: y :: rest)) = Prod (sortE (x :: y :: rest)) from rfl]
      simp only [spineSorted, Bool.and_eq_true]
      refine ⟨sortedB_of_sorted (sortE_sorted _), ?_⟩
      rw [spineSortedList_iff]
      intro z hz
      have hzw : z ∈ (x :: y :: rest) := (sortE_perm _).mem_iff.1 hz
      have : z ∈ simplifyList v := by
        rw [hv]
        exact hzw
      rw [simplifyList_eq_map] at this
      obtain ⟨w, hw, hws⟩ := List.mem_map.1 this
      rw [← hws]
      exact spineSorted_simplify w
  case Pow a b =>
    show spineSorted (postSort (simplify_one_pow (simplify_zero_pow (Pow (simplify a) (simplify b))))) = true
    by_cases h0 : simplify b = Const 0
    · rw [h0]
      rfl
    · by_cases h1 : simplify b = Const 1
      · rw [h1, show simplify_one_pow (simplify_zero_pow (Pow (simplify a) (Const 1)))
            = simplify a from rfl, postSort_simplify a]
        exact spineSorted_simplify a
      · have hz : simplify_zero_pow (Pow (simplify a) (simplify b)) = Pow (simplify a) (simplify b) := by
          simp [simplify_zero_pow, h0]
        have ho : simplify_one_pow (Pow (simplify a) (simplify b)) = Pow (simplify a) (simplify b) := by
          simp [simplify_one_pow, h1]
        rw [hz, ho, show postSort (Pow (simplify a) (simplify b)) = Pow (simplify a) (simplify b) from rfl]
        simp only [spineSorted, Bool.and_eq_true]
        exact ⟨spineSorted_simplify a, spineSorted_simplify b⟩
  case Neg x => cases x <;> rfl
  case Ln x => rfl
  case Sin x => rfl
  case Cos x => rfl
  case Arcsin x => rfl
  case Arccos x => rfl
  case Arctan x => rfl
termination_by sizeOf e

/-- The `matches!(e, Sum(_)) || matches!(e, Const(_))` test of the mod.rs
`Prod` renderer loop. -/
def parenFactor : Expr → Bool
  | Sum _ => true
  | Const _ => true
  | _ => false

mutual

/-- `Expr::to_latex` (src/lib/mod.rs): the recursive LaTeX renderer.  The
Rust code reads `v[0]` of a `Sum` or `Prod`, which panics on an empty
child vector; the panic is modelled by `none`. -/
def to_latex : Expr → Option String
  | Const n => some (toString n)
  | X => some "x"
  | Neg e => do
      let s ← to_latex e
      pure ("-" ++ s)
  | Sum [] => none
  | Sum (x :: xs) => do
      let s ← to_latex x
      sumTail xs s
  | Prod [] => none
  | Prod (x :: xs) => do
      let s ← if x = Const 1 then pure "" else to_latex x
      prodTail xs s
  | Pow a b => do
      let sa ← to_latex a
      let sb ← to_latex b
      pure (sa ++ "^\x7b" ++ sb ++ "\x7d")
  | Ln x => do
      let s ← to_latex x
      pure ("ln" ++ s)
  | Sin x => do
      let s ← to_latex x
      pure ("sin" ++ s)
  | Cos x => do
      let s ← to_latex x
      pure ("cos" ++ s)
  | Arcsin x => do
      let s ← to_latex x
      pure ("arcsin" ++ s)
  | Arccos x => do
      let s ← to_latex x
      pure ("arccos" ++ s)
  | Arctan x => do
      let s ← to_latex x
      pure ("arctan" ++ s)

/-- The loop over the remaining summands in `to_latex`: a `Neg` child is
joined with `-`, every other child with `+`. -/
def sumTail : List Expr → String → Option String
  | [], acc => some acc
  | Neg inner :: rest, acc => do
      let s ← to_latex inner
      sumTail rest (acc ++ "-" ++ s)
  | e :: rest, acc => do
      let s ← to_latex e
      sumTail rest (acc ++ "+" ++ s)

/-- The loop over the remaining factors in `to_latex`: `Sum` and `Const`
children are parenthesized, a `Const(1)` factor is skipped. -/
def prodTail : List Expr → String → Option String
  | [], acc => some acc
  | e :: rest, acc =>
      if parenFactor e then
        if e = Const 1 then prodTail rest acc
        else do
          let s ← to_latex e
          prodTail rest (acc ++ "(" ++ s ++ ")")
      else do
        let s ← to_latex e
        prodTail rest (acc ++ s)

end

namespace LRs

/-- The `matches!(.., Sum) || matches!(.., Const) || matches!(.., Neg)` test
of the latex.rs renderer. -/
def parenFactor : Expr → Bool
  | Expr.Sum _ => true
  | Expr.Const _ => true
  | Expr.Neg _ => true
  | _ => false

/-- Parenthesization of a `Pow` base in the latex.rs renderer: `Sum`,
`Prod` and `Neg` bases are wrapped. -/
def powBase : Expr → String → String
  | Expr.Sum _, s => "(" ++ s ++ ")"
  | Expr.Prod _, s => "(" ++ s ++ ")"
  | Expr.Neg _, s => "(" ++ s ++ ")"
  | _, s => s

mutual

/-- `Expr::to_latex` (src/lib/latex.rs): the reworked renderer with extra
parenthesization of `Neg` factors, parenthesized function arguments and a
parenthesized head factor; `v[0]` on an empty `Sum`/`Prod` still panics,
modelled by `none`. -/
def to_latex : Expr → Option String
  | Const n => some (toString n)
  | X => some "x"
  | Neg e => do
      let s ← to_latex e
      pure ("-(" ++ s ++ ")")
  | Sum [] => none
  | Sum (x :: xs) => do
      let s ← to_latex x
      sumTail xs s
  | Prod [] => none
  | Prod (x :: xs) => do
      let s ←
        if x = Const 1 then pure ""
        else if parenFactor x then do
          let s0 ← to_latex x
          pure ("(" ++ s0 ++ ")")
        else to_latex x
      prodTail xs s
  | Pow a b => do
      let sa ← to_latex a
      let sb ← to_latex b
      pure (powBase a sa ++ "^\x7b" ++ sb ++ "\x7d")
  | Ln x => do
      let s ← to_latex x
      pure ("ln(" ++ s ++ ")")
  | Sin x => do
      let s ← to_latex x
      pure ("sin(" ++ s ++ ")")
  | Cos x => do
      let s ← to_latex x
      pure ("cos(" ++ s ++ ")")
  | Arcsin x => do
      let s ← to_latex x
      pure ("arcsin(" ++ s ++ ")")
  | Arccos x => do
      let s ← to_latex x
      pure ("arccos(" ++ s ++ ")")
  | Arctan x => do
      let s ← to_latex x
      pure ("arctan(" ++ s ++ ")")

/-- The summand loop of the latex.rs renderer. -/
def sumTail : List Expr → String → Option String
  | [], acc => some acc
  | Neg inner :: rest, acc => do
      let s ← to_latex inner
      sumTail rest (acc ++ "-" ++ s)
  | e :: rest, acc => do
      let s ← to_latex e
      sumTail rest (acc ++ "+" ++ s)

/-- The factor loop of the latex.rs renderer: `Sum`, `Const` and `Neg`
children are parenthesized, a `Const(1)` factor is skipped. -/
def prodTail : List Expr → String → Option String
  | [], acc => some acc
  | e :: rest, acc =>
      if parenFactor e then
        if e = Expr.Const 1 then prodTail rest acc
        else do
          let s ← to_latex e
          prodTail rest (acc ++ "(" ++ s ++ ")")
      else do
        let s ← to_latex e
        prodTail rest (acc ++ s)

end

end LRs

mutual

/-- Every `Sum` and `Prod` node in the tree has at least one child. -/
def nonemptySP : Expr → Bool
  | Sum v => !v.isEmpty && nonemptySPList v
  | Prod v => !v.isEmpty && nonemptySPList v
  | Neg e => nonemptySP e
  | Pow a b => nonemptySP a && nonemptySP b
  | Ln e => nonemptySP e
  | Sin e => nonemptySP e
  | Cos e => nonemptySP e
  | Arcsin e => nonemptySP e
  | Arccos e => nonemptySP e
  | Arctan e => nonemptySP e
  | _ => true

/-- `nonemptySP` over a child vector. -/
def nonemptySPList : List Expr → Bool
  | [] => true
  | x :: xs => nonemptySP x && nonemptySPList xs

end

mutual

/-- The mod.rs renderer succeeds on every tree whose `Sum`/`Prod` nodes
all have at least one child. -/
theorem to_latex_total_mod (e : Expr) (h : nonemptySP e = true) :
    ∃ s, to_latex e = some s := by
  cases e
  case Const n => exact ⟨_, rfl⟩
  case X => exact ⟨_, rfl⟩
  case Neg x =>
    obtain ⟨s, hs⟩ := to_latex_total_mod x h
    exact ⟨"-" ++ s, by simp [to_latex, hs]⟩
  case Sum v =>
    cases v with
    | nil => simp [nonemptySP] at h
    | cons x xs =>
      simp only [nonemptySP, nonemptySPList, List.isEmpty_cons, Bool.not_false, Bool.true_and,
        Bool.and_eq_true] at h
      obtain ⟨s, hs⟩ := to_latex_total_mod x h.1
      obtain ⟨t, ht⟩ := sumTail_total_mod xs s h.2
      exact ⟨t, by simp [to_latex, hs, ht]⟩
  case Prod v =>
    cases v with
    | nil => simp [nonemptySP] at h
    | cons x xs =>
      simp only [nonemptySP, nonemptySPList, List.isEmpty_cons, Bool.not_false, Bool.true_and,
        Bool.and_eq_true] at h
      by_cases hc : x = Const 1
      · obtain ⟨t, ht⟩ := prodTail_total_mod xs "" h.2
        exact ⟨t, by simp [to_latex, hc, ht]⟩
      · obtain ⟨s, hs⟩ := to_latex_total_mod x h.1
        obtain ⟨t, ht⟩ := prodTail_total_mod xs s h.2
        exact ⟨t, by simp [to_latex, hc, hs, ht]⟩
  case Pow a b =>
    simp only [nonemptySP, Bool.and_eq_true] at h
    obtain ⟨sa, hsa⟩ := to_latex_total_mod a h.1
    obtain ⟨sb, hsb⟩ := to_latex_total_mod b h.2
    exact ⟨sa ++ "^\x7b" ++ sb ++ "\x7d", by simp [to_latex, hsa, hsb]⟩
  case Ln x =>
    obtain ⟨s, hs⟩ := to_latex_total_mod x h
    exact ⟨"ln" ++ s, by simp [to_latex, hs]⟩
  case Sin x =>
    obtain ⟨s, hs⟩ := to_latex_total_mod x h
    exact ⟨"sin" ++ s, by simp [to_latex, hs]⟩
  case Cos x =>
    obtain ⟨s, hs⟩ := to_latex_total_mod x h
    exact ⟨"cos" ++ s, by simp [to_latex, hs]⟩
  case Arcsin x =>
    obtain ⟨s, hs⟩ := to_latex_total_mod x h
    exact ⟨"arcsin" ++ s, by simp [to_latex, hs]⟩
  case Arccos x =>
    obtain ⟨s, hs⟩ := to_latex_total_mod x h
    exact ⟨"arccos" ++ s, by simp [to_latex, hs]⟩
  case Arctan x =>
    obtain ⟨s, hs⟩ := to_latex_total_mod x h
    exact ⟨"arctan" ++ s, by simp [to_latex, hs]⟩
termination_by sizeOf e

/-- The summand loop succeeds on nonempty-`Sum`/`Prod` elements. -/
theorem sumTail_total_mod (l : List Expr) (acc : String) (h : nonemptySPList l = true) :
    ∃ s, sumTail l acc = some s := by
  cases l with
  | nil => exact ⟨acc, rfl⟩
  | cons e rest =>
    simp only [nonemptySPList, Bool.and_eq_true] at h
    cases e
    case Neg inner =>
      obtain ⟨s, hs⟩ := to_latex_total_mod inner h.1
      obtain ⟨t, ht⟩ := sumTail_total_mod rest (acc ++ "-" ++ s) h.2
      exact ⟨t, by simp [sumTail, hs, ht]⟩
    all_goals
      obtain ⟨s, hs⟩ := to_latex_total_mod _ h.1
      obtain ⟨t, ht⟩ := sumTail_total_mod rest (acc ++ "+" ++ s) h.2
      exact ⟨t, by simp [sumTail, hs, ht]⟩
termination_by sizeOf l

/-- The factor loop succeeds on nonempty-`Sum`/`Prod` elements. -/
theorem prodTail_total_mod (l : List Expr) (acc : String) (h : nonemptySPList l = true) :
    ∃ s, prodTail l acc = some s := by
  cases l with
  | nil => exact ⟨acc, rfl⟩
  | cons e rest =>
    simp only [nonemptySPList, Bool.and_eq_true] at h
    by_cases hc : e = Const 1
    · subst hc
      obtain ⟨t, ht⟩ := prodTail_total_mod rest acc h.2
      exact ⟨t, by simp [prodTail, parenFactor, ht]⟩
    · by_cases hp : parenFactor e = true
      · obtain ⟨s, hs⟩ := to_latex_total_mod e h.1
        obtain ⟨t, ht⟩ := prodTail_total_mod rest (acc ++ "(" ++ s ++ ")") h.2
        exact ⟨t, by simp [prodTail, hp, hc, hs, ht]⟩
      · obtain ⟨s, hs⟩ := to_latex_total_mod e h.1
        obtain ⟨t, ht⟩ := prodTail_total_mod rest (acc ++ s) h.2
        exact ⟨t, by simp [prodTail, hp, hs, ht]⟩
termination_by sizeOf l

end

mutual

/-- The latex.rs renderer succeeds on every tree whose `Sum`/`Prod` nodes
all have at least one child. -/
theorem to_latex_total_lrs (e : Expr) (h : nonemptySP e = true) :
    ∃ s, LRs.to_latex e = some s := by
  cases e
  case Const n => exact ⟨_, rfl⟩
  case X => exact ⟨_, rfl⟩
  case Neg x =>
    obtain ⟨s, hs⟩ := to_latex_total_lrs x h
    exact ⟨"-(" ++ s ++ ")", by simp [LRs.to_latex, hs]⟩
  case Sum v =>
    cases v with
    | nil => simp [nonemptySP] at h
    | cons x xs =>
      simp only [nonemptySP, nonemptySPList, List.isEmpty_cons, Bool.not_false, Bool.true_and,
        Bool.and_eq_true] at h
      obtain ⟨s, hs⟩ := to_latex_total_lrs x h.1
      obtain ⟨t, ht⟩ := sumTail_total_lrs xs s h.2
      exact ⟨t, by simp [LRs.to_latex, hs, ht]⟩
  case Prod v =>
    cases v with
    | nil => simp [nonemptySP] at h
    | cons x xs =>
      simp only [nonemptySP, nonemptySPList, List.isEmpty_cons, Bool.not_false, Bool.true_and,
        Bool.and_eq_true] at h
      by_cases hc : x = Const 1
      · obtain ⟨t, ht⟩ := prodTail_total_lrs xs "" h.2
        exact ⟨t, by simp [LRs.to_latex, hc, ht]⟩
      · by_cases hp : LRs.parenFactor x = true
        · obtain ⟨s, hs⟩ := to_latex_total_lrs x h.1
          obtain ⟨t, ht⟩ := prodTail_total_lrs xs ("(" ++ s ++ ")") h.2
          exact ⟨t, by simp [LRs.to_latex, hc, hp, hs, ht]⟩
        · obtain ⟨s, hs⟩ := to_latex_total_lrs x h.1
          obtain ⟨t, ht⟩ := prodTail_total_lrs xs s h.2
          exact ⟨t, by simp [LRs.to_latex, hc, hp, hs, ht]⟩
  case Pow a b =>
    simp only [nonemptySP, Bool.and_eq_true] at h
    obtain ⟨sa, hsa⟩ := to_latex_total_lrs a h.1
    obtain ⟨sb, hsb⟩ := to_latex_total_lrs b h.2
    refine ⟨LRs.powBase a sa ++ "^\x7b" ++ sb ++ "\x7d", ?_⟩
    show ((LRs.to_latex a).bind fun s1 => (LRs.to_latex b).bind fun s2 =>
      some (LRs.powBase a s1 ++ "^\x7b" ++ s2 ++ "\x7d")) = _
    rw [hsa, hsb]
    rfl
  case Ln x =>
    obtain ⟨s, hs⟩ := to_latex_total_lrs x h
    exact ⟨"ln(" ++ s ++ ")", by simp [LRs.to_latex, hs]⟩
  case Sin x =>
    obtain ⟨s, hs⟩ := to_latex_total_lrs x h
    exact ⟨"sin(" ++ s ++ ")", by simp [LRs.to_latex, hs]⟩
  case Cos x =>
    obtain ⟨s, hs⟩ := to_latex_total_lrs x h
    exact ⟨"cos(" ++ s ++ ")", by simp [LRs.to_latex, hs]⟩
  case Arcsin x =>
    obtain ⟨s, hs⟩ := to_latex_total_lrs x h
    exact ⟨"arcsin(" ++ s ++ ")", by simp [LRs.to_latex, hs]⟩
  case Arccos x =>
    obtain ⟨s, hs⟩ := to_latex_total_lrs x h
    exact ⟨"arccos(" ++ s ++ ")", by simp [LRs.to_latex, hs]⟩
  case Arctan x =>
    obtain ⟨s, hs⟩ := to_latex_total_lrs x h
    exact ⟨"arctan(" ++ s ++ ")", by simp [LRs.to_latex, hs]⟩
termination_by sizeOf e

/-- The latex.rs summand loop succeeds on nonempty-`Sum`/`Prod` elements. -/
theorem sumTail_total_lrs (l : List Expr) (acc : String) (h : nonemptySPList l = true) :
    ∃ s, LRs.sumTail l acc = some s := by
  cases l with
  | nil => exact ⟨acc, rfl⟩
  | cons e rest =>
    simp only [nonemptySPList, Bool.and_eq_true] at h
    cases e
    case Neg inner =>
      obtain ⟨s, hs⟩ := to_latex_total_lrs inner h.1
      obtain ⟨t, ht⟩ := sumTail_total_lrs rest (acc ++ "-" ++ s) h.2
      exact ⟨t, by simp [LRs.sumTail, hs, ht]⟩
    all_goals
      obtain ⟨s, hs⟩ := to_latex_total_lrs _ h.1
      obtain ⟨t, ht⟩ := sumTail_total_lrs rest (acc ++ "+" ++ s) h.2
      exact ⟨t, by simp [LRs.sumTail, hs, ht]⟩
termination_by sizeOf l

/-- The latex.rs factor loop succeeds on nonempty-`Sum`/`Prod` elements. -/
theorem prodTail_total_lrs (l : List Expr) (acc : String) (h : nonemptySPList l = true) :
    ∃ s, LRs.prodTail l acc = some s := by
  cases l with
  | nil => exact ⟨acc, rfl⟩
  | cons e rest =>
    simp only [nonemptySPList, Bool.and_eq_true] at h
    by_cases hc : e = Const 1
    · subst hc
      obtain ⟨t, ht⟩ := prodTail_total_lrs rest acc h.2
      exact ⟨t, by simp [LRs.prodTail, LRs.parenFactor, ht]⟩
    · by_cases hp : LRs.parenFactor e = true
      · obtain ⟨s, hs⟩ := to_latex_total_lrs e h.1
        obtain ⟨t, ht⟩ := prodTail_total_lrs rest (acc ++ "(" ++ s ++ ")") h.2
        exact ⟨t, by simp [LRs.prodTail, hp, hc, hs, ht]⟩
      · obtain ⟨s, hs⟩ := to_latex_total_lrs e h.1
        obtain ⟨t, ht⟩ := prodTail_total_lrs rest (acc ++ s) h.2
        exact ⟨t, by simp [LRs.prodTail, hp, hs, ht]⟩
termination_by sizeOf l

end

mutual

/-- `Expr::derivative` (src/lib/mod.rs).  The recursion is fuelled because
the general-exponent power rule recurses into the freshly built tree
`ln(a) * b`; `none` covers both fuel exhaustion and the `v[0]` panic that
the product rule hits on an empty `Prod` (splitting any product into head
and tail eventually differentiates `Prod([])`, whose `v[0]` access
panics). -/
def derivative : Nat → Expr → Option Expr
  | 0, _ => none
  | n + 1, e =>
    match e with
    | Const _ => some (Const 0)
    | X => some (Const 1)
    | Sum v => (derivativeList n v).map Sum
    | Neg x => (derivative n x).map Neg
    | Prod [] => none
    | Prod (a :: rest) => do
        let db ← derivative n (Prod rest)
        let da ← derivative n a
        pure (add (mul a db) (mul (Prod rest) da))
    | Pow a b =>
      match b with
      | Const 0 => some (Const 0)
      | Const 1 => derivative n a
      | Const c => do
          let db ← derivative n (Const c)
          pure (mul (mul (Const c) (Pow a (sub (Const c) (Const 1)))) db)
      | b => do
          let d ← derivative n (mul (ln a) b)
          pure (mul (Pow a b) d)
    | Ln x => do
        let dx ← derivative n x
        pure (mul dx (Pow x (Const (-1))))
    | Sin x => do
        let dx ← derivative n x
        pure (mul dx (Cos x))
    | Cos x => do
        let dx ← derivative n x
        pure (mul dx (neg (Sin x)))
    | Arcsin x => do
        let dx ← derivative n x
        pure (mul dx (Pow (neg (addNum (mul x x) 1)) (divNum (Const 1) 2)))
    | Arccos x => do
        let dx ← derivative n x
        pure (mul dx (neg (Pow (neg (addNum (mul x x) 1)) (divNum (Const 1) 2))))
    | Arctan x => do
        let dx ← derivative n x
        pure (mul dx (Pow (addNum (mul x x) 1) (Const (-1))))

/-- The derivative mapped over the children of a `Sum`; the fuel ticks
down once per element so that the mutual recursion stays structural. -/
def derivativeList : Nat → List Expr → Option (List Expr)
  | _, [] => some []
  | 0, _ :: _ => none
  | n + 1, x :: xs => do
      let d ← derivative n x
      let ds ← derivativeList n xs
      pure (d :: ds)

end

namespace DRs

mutual

/-- `Expr::derivative` (src/lib/derivative.rs): the repaired rule set with
guards for empty and singleton products and the power rule multiplying by
the derivative of the base.  Fuelled for the same general-exponent reason;
the Rust function itself is total. -/
def derivative : Nat → Expr → Option Expr
  | 0, _ => none
  | n + 1, e =>
    match e with
    | Const _ => some (Const 0)
    | Prod [] => some (Const 0)
    | Pow _ (Const 0) => some (Const 0)
    | Prod [x] => derivative n x
    | Pow a (Const 1) => derivative n a
    | X => some (Const 1)
    | Sum v => (derivativeList n v).map Sum
    | Neg x => (derivative n x).map neg
    | Prod (a0 :: a1 :: rest) => do
        let a := (a0 :: a1 :: rest).getLastD (Const 0)
        let b := Prod (a0 :: a1 :: rest).dropLast
        let db ← derivative n b
        let da ← derivative n a
        pure (add (mul a db) (mul b da))
    | Pow a (Const c) => do
        let da ← derivative n a
        pure (mul (mul (Const c) (pow a (sub (Const c) (Const 1)))) da)
    | Pow a b => do
        let d ← derivative n (mul (ln a) b)
        pure (mul d (Pow a b))
    | Ln x => do
        let dx ← derivative n x
        pure (mul (numDiv 1 x) dx)
    | Sin x => do
        let dx ← derivative n x
        pure (mul (Cos x) dx)
    | Cos x => do
        let dx ← derivative n x
        pure (mul (neg (Sin x)) dx)
    | Arcsin x => do
        let dx ← derivative n x
        pure (mul (pow (numSub 1 (pow x (Const 2))) (divNum (Const 1) 2)) dx)
    | Arccos x => do
        let dx ← derivative n x
        pure (mul (neg (pow (numSub 1 (pow x (Const 2))) (divNum (Const 1) 2))) dx)
    | Arctan x => do
        let dx ← derivative n x
        pure (mul (numDiv 1 (numAdd 1 (pow x (Const 2)))) dx)

/-- The derivative mapped over the children of a `Sum`; the fuel ticks
down once per element so that the mutual recursion stays structural. -/
def derivativeList : Nat → List Expr → Option (List Expr)
  | _, [] => some []
  | 0, _ :: _ => none
  | n + 1, x :: xs => do
      let d ← derivative n x
      let ds ← derivativeList n xs
      pure (d :: ds)

end

end DRs

end Expr

end Lib

namespace LibOld

/-- The expression AST of the older `src/lib.rs`: like the current enum but
with a dedicated `Recip` variant and no transcendental functions, in
declaration order. -/
inductive Expr : Type
  | Const : Int → Expr
  | X : Expr
  | Sum : List Expr → Expr
  | Prod : List Expr → Expr
  | Neg : Expr → Expr
  | Recip : Expr → Expr
  | Pow : Expr → Expr → Expr

namespace Expr

/-- Discriminant rank of a variant of the old enum. -/
def rank : Expr → Nat
  | Const _ => 0
  | X => 1
  | Sum _ => 2
  | Prod _ => 3
  | Neg _ => 4
  | Recip _ => 5
  | Pow _ _ => 6

mutual

/-- The derived `Ord` of the old enum. -/
def cmp (a b : Expr) : Ordering :=
  if rank a < rank b then .lt
  else if rank b < rank a then .gt
  else
    match a, b with
    | Const m, Const n => compare m n
    | Sum v, Sum w => cmpList v w
    | Prod v, Prod w => cmpList v w
    | Neg x, Neg y => cmp x y
    | Recip x, Recip y => cmp x y
    | Pow a1 b1, Pow a2 b2 => (cmp a1 a2).then (cmp b1 b2)
    | _, _ => .eq

/-- Lexicographic comparison of old-enum child vectors. -/
def cmpList : List Expr → List Expr → Ordering
  | [], [] => .eq
  | [], _ :: _ => .lt
  | _ :: _, [] => .gt
  | a :: as_, b :: bs => (cmp a b).then (cmpList as_ bs)

end

theorem cmpO_rank_lt (a b : Expr) (h : rank a < rank b) : cmp a b = .lt := by
  unfold cmp
  rw [if_pos h]

theorem cmpO_rank_gt (a b : Expr) (h : rank b < rank a) : cmp a b = .gt := by
  unfold cmp
  rw [if_neg (by omega), if_pos h]

/-- Distinct variant ranks make both sides of the equality criterion false. -/
theorem cmpO_eq_iff_offdiag (a b : Expr) (h : rank a ≠ rank b) :
    cmp a b = .eq ↔ a = b := by
  constructor
  · intro he
    rcases Nat.lt_trichotomy (rank a) (rank b) with hl | he2 | hg
    · rw [cmpO_rank_lt a b hl] at he
      exact absurd he (by simp)
    · exact absurd he2 h
    · rw [cmpO_rank_gt a b hg] at he
      exact absurd he (by simp)
  · intro he
    subst he
    exact absurd rfl h

mutual

/-- The old derived comparison returns `eq` exactly on equal trees. -/
theorem cmpO_eq_iff (a b : Expr) : cmp a b = .eq ↔ a = b := by
  cases a <;> cases b <;>
    first
    | exact cmpO_eq_iff_offdiag _ _ (of_decide_eq_true rfl)
    | skip
  case Const.Const m n =>
    rw [show cmp (Const m) (Const n) = compare m n from rfl]
    simp [compare_eq_iff_eq]
  case X.X =>
    simp [show cmp X X = .eq from rfl]
  case Sum.Sum v w =>
    rw [show cmp (Sum v) (Sum w) = cmpList v w from rfl, cmpListO_eq_iff v w]
    simp
  case Prod.Prod v w =>
    rw [show cmp (Prod v) (Prod w) = cmpList v w from rfl, cmpListO_eq_iff v w]
    simp
  case Neg.Neg x y =>
    rw [show cmp (Neg x) (Neg y) = cmp x y from rfl, cmpO_eq_iff x y]
    simp
  case Recip.Recip x y =>
    rw [show cmp (Recip x) (Recip y) = cmp x y from rfl, cmpO_eq_iff x y]
    simp
  case Pow.Pow a1 b1 a2 b2 =>
    rw [show cmp (Pow a1 b1) (Pow a2 b2) = (cmp a1 a2).then (cmp b1 b2) from rfl]
    simp [Lib.Expr.then_eq_eq, cmpO_eq_iff a1 a2, cmpO_eq_iff b1 b2]
termination_by (sizeOf a + sizeOf b)

/-- The old list comparison returns `eq` exactly on equal lists. -/
theorem cmpListO_eq_iff (v w : List Expr) : cmpList v w = .eq ↔ v = w := by
  cases v <;> cases w <;> try (simp [cmpList]; done)
  case cons.cons a as_ b bs =>
    simp [cmpList, Lib.Expr.then_eq_eq, cmpO_eq_iff a b, cmpListO_eq_iff as_ bs]
termination_by (sizeOf v + sizeOf w)

end

instance : DecidableEq Expr := fun a b =>
  decidable_of_iff (cmp a b = .eq) (cmpO_eq_iff a b)

/-- The `<=` of the old derived `Ord`. -/
def le (a b : Expr) : Prop := cmp a b ≠ Ordering.gt

instance : DecidableRel le := fun a b => by
  unfold le
  infer_instance

/-- The model of `Vec::sort` for the old enum. -/
def sortE (v : List Expr) : List Expr := List.insertionSort le v

/-- `Add for Expr` (src/lib.rs): pushes onto an existing left `Sum`. -/
def add (a rhs : Expr) : Expr :=
  Sum (match a with
    | Sum v => v ++ [rhs]
    | _ => [a, rhs])

/-- `Mul for Expr` (src/lib.rs): pushes onto an existing left `Prod`. -/
def mul (a rhs : Expr) : Expr :=
  Prod (match a with
    | Prod v => v ++ [rhs]
    | _ => [a, rhs])

/-- `Neg for Expr` (src/lib.rs): double negation collapses. -/
def neg : Expr → Expr
  | Neg e => e
  | a => Neg a

/-- `Sub for Expr` (src/lib.rs): addition of the negation. -/
def sub (a rhs : Expr) : Expr := add a (neg rhs)

/-- `Div for Expr` (src/lib.rs): multiplication by a `Recip` node (the
`recip` method is not consulted here). -/
def div (a rhs : Expr) : Expr := mul a (Recip rhs)

/-- `Expr::recip` (src/lib.rs): unwraps a `Recip`, otherwise wraps. -/
def recip : Expr → Expr
  | Recip e => e
  | s => Recip s

/-- The `matches!(x, Const(_))` test. -/
def isConst : Expr → Bool
  | Const _ => true
  | _ => false

/-- `Expr::like_terms_with` (src/lib.rs): structural like-term test used by
`simplify_apply_sums`. -/
def like_terms_with (s term : Expr) : Bool :=
  if s = term then true
  else
    match s with
    | Prod a =>
      match term with
      | Prod b => sortE (a.filter (fun x => !isConst x)) = sortE (b.filter (fun x => !isConst x))
      | _ => a.contains term
    | Sum a =>
      match term with
      | Sum b => sortE a = sortE b
      | Prod b => b.contains (Sum a)
      | _ => false
    | Const _ => isConst term
    | s =>
      match term with
      | Prod b => b.contains s
      | term => s = term

/-- Adds `k` to the first `Const` element of a vector, if any (the
`iter_mut().find(..)` pattern of `add_like_term`); `isize` addition wraps. -/
def addToFirstConst : List Expr → Int → List Expr
  | [], _ => []
  | Const c :: rest, k => Const (wrapI (c + k)) :: rest
  | x :: rest, k => x :: addToFirstConst rest k

/-- First `Const` payload of a vector, if any. -/
def firstConst : List Expr → Option Int
  | [] => none
  | Const c :: _ => some c
  | _ :: rest => firstConst rest

/-- `Expr::add_like_term` (src/lib.rs): folds `term`'s coefficient into
`self`, leaving `self` unchanged in the cases the source does not handle. -/
def add_like_term (s term : Expr) : Expr :=
  match s with
  | Const a =>
    match term with
    | Const b => Const (wrapI (a + b))
    | _ => Const a
  | Prod a =>
    match term with
    | Prod b =>
      match firstConst b with
      | some c2 => Prod (addToFirstConst a c2)
      | none => Prod a
    | term =>
      if a.contains term then Prod (addToFirstConst a 1)
      else Prod a
  | s => if s = term then Prod [Const 2, s] else s

/-- `Expr::simplify_singleton` (src/lib.rs). -/
def simplify_singleton : Expr → Expr
  | Sum [] => Const 0
  | Sum [x] => x
  | Prod [] => Const 0
  | Prod [x] => x
  | e => e

/-- The trailing sort of `Expr::simplify` (src/lib.rs, lines 297-305). -/
def postSort : Expr → Expr
  | Sum v => Sum (sortE v)
  | Prod v => Prod (sortE v)
  | e => e

mutual

/-- Node count of an old-enum expression (used only to size loop fuel). -/
def esize : Expr → Nat
  | Const _ => 1
  | X => 1
  | Sum v => 1 + esizeList v
  | Prod v => 1 + esizeList v
  | Neg e => 1 + esize e
  | Recip e => 1 + esize e
  | Pow a b => 1 + esize a + esize b

/-- Node count of a child vector. -/
def esizeList : List Expr → Nat
  | [] => 0
  | x :: xs => esize x + esizeList xs

end

/-- The `while` loop of `simplify_sums_in_sums`: a `Sum` child has its
elements appended at the end and is removed; the loop index only advances
past non-`Sum` children.  The fuel bound dominates the loop's decreasing
measure, so it never runs out on the Rust loop's actual iterations. -/
def sumsLoop : Nat → List Expr → Nat → List Expr
  | 0, v, _ => v
  | fuel + 1, v, i =>
    if h : i < v.length then
      match v[i] with
      | Sum e => sumsLoop fuel ((v ++ e).eraseIdx i) i
      | _ => sumsLoop fuel v (i + 1)
    else v

/-- `Expr::simplify_sums_in_sums` (src/lib.rs). -/
def simplify_sums_in_sums : Expr → Expr
  | Sum v => Sum (sumsLoop (esizeList v + v.length + 1) v 0)
  | e => e

/-- The first like-term partner `j < i` for `v[i]`, as scanned by
`simplify_apply_sums`. -/
def asScan (v : List Expr) (i : Nat) : Option Nat :=
  match v[i]? with
  | none => none
  | some vi => (v.take i).findIdx? (fun x => like_terms_with vi x)

/-- The double loop of `simplify_apply_sums`: merge `v[i]` into the first
like term to its left and drop it, else advance. -/
def asLoop : Nat → List Expr → Nat → List Expr
  | 0, v, _ => v
  | fuel + 1, v, i =>
    if i < v.length then
      match asScan v i with
      | some j =>
        asLoop fuel ((v.set j (add_like_term (v.getD j (Const 0)) (v.getD i (Const 0)))).eraseIdx i) i
      | none => asLoop fuel v (i + 1)
    else v

/-- `Expr::simplify_apply_sums` (src/lib.rs): pairwise like-term merging,
starting at index 1. -/
def simplify_apply_sums : Expr → Expr
  | Sum v => Sum (asLoop (2 * v.length + 1) v 1)
  | e => e

/-- The first `Const` among the first `i` elements, with its index. -/
def constBefore : List Expr → Nat → Option (Nat × Int)
  | _, 0 => none
  | [], _ => none
  | Const c :: _, _ + 1 => some (0, c)
  | _ :: rest, b + 1 => (constBefore rest b).map (fun p => (p.1 + 1, p.2))

/-- The double loop of `simplify_mult_consts`: a `Const` factor at `i` is
multiplied (wrapping) into the first `Const` to its left and removed. -/
def mcLoop : Nat → List Expr → Nat → List Expr
  | 0, v, _ => v
  | fuel + 1, v, i =>
    if h : i < v.length then
      match v[i] with
      | Const b =>
        match constBefore v i with
        | some (j, a) => mcLoop fuel ((v.set j (Const (wrapI (a * b)))).eraseIdx i) i
        | none => mcLoop fuel v (i + 1)
      | _ => mcLoop fuel v (i + 1)
    else v

/-- `Expr::simplify_mult_consts` (src/lib.rs). -/
def simplify_mult_consts : Expr → Expr
  | Prod v => Prod (mcLoop (2 * v.length + 1) v 1)
  | e => e

/-- The inner scan of `simplify_mult_pows` when `v[i]` is `Pow(a, b)`: a
`Pow(c, d)` with `c == a` absorbs the exponent; a non-`Pow` partner is
compared against `v[i]` itself (the source compares `*a == v[i]`, which
can never hold, and the translation preserves that). -/
def powScanPow : List Expr → Expr → Expr → Expr → Option (Nat × Expr)
  | [], _, _, _ => none
  | Pow c d :: rest, a, b, vi =>
    if c = a then some (0, Pow c (add b d))
    else (powScanPow rest a b vi).map (fun p => (p.1 + 1, p.2))
  | _ :: rest, a, b, vi =>
    if a = vi then some (0, Pow a (add b (Const 1)))
    else (powScanPow rest a b vi).map (fun p => (p.1 + 1, p.2))

/-- The inner scan of `simplify_mult_pows` when `v[i]` is not a `Pow`: a
`Pow(c, d)` with `c == v[i]` gains exponent `+1`, an equal plain factor
becomes `Pow(_, Const(2))`. -/
def powScanPlain : List Expr → Expr → Option (Nat × Expr)
  | [], _ => none
  | Pow c d :: rest, vi =>
    if c = vi then some (0, Pow c (add d (Const 1)))
    else (powScanPlain rest vi).map (fun p => (p.1 + 1, p.2))
  | x :: rest, vi =>
    if vi = x then some (0, Pow x (Const 2))
    else (powScanPlain rest vi).map (fun p => (p.1 + 1, p.2))

/-- The outer loop of `simplify_mult_pows`. -/
def mpLoop : Nat → List Expr → Nat → List Expr
  | 0, v, _ => v
  | fuel + 1, v, i =>
    if h : i < v.length then
      match v[i] with
      | Pow a b =>
        match powScanPow (v.take i) a b (Pow a b) with
        | some (j, el) => mpLoop fuel ((v.set j el).eraseIdx i) i
        | none => mpLoop fuel v (i + 1)
      | vi =>
        match powScanPlain (v.take i) vi with
        | some (j, el) => mpLoop fuel ((v.set j el).eraseIdx i) i
        | none => mpLoop fuel v (i + 1)
    else v

/-- `Expr::simplify_mult_pows` (src/lib.rs). -/
def simplify_mult_pows : Expr → Expr
  | Prod v => Prod (mpLoop (2 * v.length + 1) v 1)
  | e => e

/-- The inner scan of `simplify_cancel_fracs`: the first `j > i` whose
element's reciprocal equals `v[i]`. -/
def cfScan (v : List Expr) (i : Nat) : Option Nat :=
  match v[i]? with
  | none => none
  | some vi => ((v.drop (i + 1)).findIdx? (fun x => vi == recip x)).map (fun k => i + 1 + k)

/-- The outer loop of `simplify_cancel_fracs`: cancel the pair, push a
`Const(1)` at the end and retry the same index. -/
def cfLoop : Nat → List Expr → Nat → List Expr
  | 0, v, _ => v
  | fuel + 1, v, i =>
    if i < v.length then
      match cfScan v i with
      | some j => cfLoop fuel (((v.eraseIdx j).eraseIdx i) ++ [Const 1]) i
      | none => cfLoop fuel v (i + 1)
    else v

/-- `Expr::simplify_cancel_fracs` (src/lib.rs). -/
def simplify_cancel_fracs : Expr → Expr
  | Prod v => Prod (cfLoop (2 * v.length + 1) v 0)
  | e => e

mutual

/-- `Expr::simplify` (src/lib.rs): the like-term/constant-folding
simplifier.  The recursion is fuelled because the `Prod` branch re-runs
`simplify_terms` on children freshly built by `simplify_mult_pows`;
`none` only means the fuel ran out. -/
def simplify : Nat → Expr → Option Expr
  | 0, _ => none
  | f + 1, e =>
    match e with
    | Sum v => do
        let w ← simplifyList f v
        pure (postSort (simplify_singleton (simplify_apply_sums (simplify_sums_in_sums (Sum w)))))
    | Prod v => do
        let w ← simplifyList f v
        let e2 := simplify_mult_pows (simplify_mult_consts (simplify_cancel_fracs (Prod w)))
        let e3 ← simplify_terms f e2
        pure (postSort (simplify_singleton e3))
    | Pow a b => do
        let a2 ← simplify f a
        let b2 ← simplify f b
        pure (postSort (Pow a2 b2))
    | e => pure (postSort e)

/-- `Expr::simplify_terms` (src/lib.rs): simplify the children of a `Sum`,
`Prod` or `Pow`; other variants (including `Neg` and `Recip`) are left
untouched. -/
def simplify_terms : Nat → Expr → Option Expr
  | 0, _ => none
  | f + 1, e =>
    match e with
    | Sum v => (simplifyList f v).map Sum
    | Prod v => (simplifyList f v).map Prod
    | Pow a b => do
        let a2 ← simplify f a
        let b2 ← simplify f b
        pure (Pow a2 b2)
    | e => some e

/-- Simplification mapped over a child vector, ticking the fuel down once
per element so the mutual recursion stays structural. -/
def simplifyList : Nat → List Expr → Option (List Expr)
  | _, [] => some []
  | 0, _ :: _ => none
  | f + 1, x :: xs => do
      let y ← simplify f x
      let ys ← simplifyList f xs
      pure (y :: ys)

end

/-- Fuel independence of the non-idempotence example: at any fuel of at
least 16, the sum of two halves simplifies to the coefficient-times-half
product. -/
theorem simplify_recipSum_eval (n : Nat) :
    simplify (n + 16) (Sum [Recip (Const 2), Recip (Const 2)])
      = some (Prod [Const 2, Recip (Const 2)]) := rfl

/-- Fuel independence of the non-idempotence example, second pass: the
product cancels to `Const 1` at any fuel of at least 16. -/
theorem simplify_recipProd_eval (n : Nat) :
    simplify (n + 16) (Prod [Const 2, Recip (Const 2)]) = some (Const 1) := rfl

end Expr

end LibOld

section ClaimsOnCurrentGeneration

open Lib.Expr

/-- C1: the claim says `derivative(Pow(a, Const(c)))` is
`c * Pow(a, c-1) * derivative(a)` and that
`simplify(derivative(Pow(Var, Const(3))))` equals
`simplify(Const(3) * Pow(Var, Const(2)))`.  Evaluating the code at
`Pow(X, Const(3))`: the mod.rs rule multiplies by the derivative of the
exponent (`Const 0`) instead of `derivative(a)`; the derivative.rs rule has
the claimed shape (with `c-1` as the unevaluated tree
`Sum [Const c, Neg (Const 1)]`); and the mod.rs simplifier folds neither the
exponent `3-1` nor the constant factors, so neither version's simplified
derivative equals `simplify(Const(3) * Pow(Var, Const(2)))`. -/
theorem C1_power_rule_eval (a : Lib.Expr) (c : Int) (n : Nat) (h0 : c ≠ 0) (h1 : c ≠ 1) :
    derivative (n + 2) (Pow a (Const c))
        = some (Prod [Const c, Pow a (Sum [Const c, Neg (Const 1)]), Const 0])
    ∧ DRs.derivative (n + 1) (Pow a (Const c))
        = (DRs.derivative n a).map
            (fun da => Prod [Const c, Pow a (Sum [Const c, Neg (Const 1)]), da])
    ∧ simplify (Prod [Const 3, Pow X (Sum [Const 3, Neg (Const 1)]), Const 0])
        ≠ simplify (mul (Const 3) (Pow X (Const 2)))
    ∧ simplify (Prod [Const 3, Pow X (Sum [Const 3, Neg (Const 1)]), Const 1])
        ≠ simplify (mul (Const 3) (Pow X (Const 2))) := by
  refine ⟨?_, ?_, by decide, by decide⟩
  · simp only [derivative]
    rfl
  · simp only [DRs.derivative]
    cases hda : DRs.derivative n a <;> simp [hda]
    rfl

/-- C1 (witness): the power rule evaluated at `Pow(X, Const(3))`,
discharging the side conditions `3 ≠ 0` and `3 ≠ 1`. -/
theorem C1_power_rule_eval_witness :
    derivative 9 (Pow X (Const 3))
        = some (Prod [Const 3, Pow X (Sum [Const 3, Neg (Const 1)]), Const 0])
    ∧ DRs.derivative 8 (Pow X (Const 3))
        = some (Prod [Const 3, Pow X (Sum [Const 3, Neg (Const 1)]), Const 1]) := by
  have h := C1_power_rule_eval X 3 7 (by decide) (by decide)
  exact ⟨h.1, by rw [h.2.1]; rfl⟩

/-- C2 (amended): the mod.rs `simplify` is idempotent; for every
expression, simplifying twice equals simplifying once. -/
theorem C2_modRs_simplify_idempotent (e : Lib.Expr) :
    simplify (simplify e) = simplify e :=
  simplify_idem e

/-- C3 (counterexample): `simplify` is not a full post-order recursion.
The child of an `Ln` node is never simplified (so the result differs from
rebuilding `Ln` around the simplified child), and the `Neg` rule fires on
the raw child (so `Neg(Neg(Const 1))` is returned unchanged, while
pre-simplifying the child would enable the negative-constant rule). -/
theorem C3_children_not_presimplified :
    simplify (Ln (Sum [X])) ≠ Ln (simplify (Sum [X]))
    ∧ simplify (Neg (Neg (Const 1)))
        ≠ simplify_negative_consts (Neg (simplify (Neg (Const 1)))) := by
  constructor
  · decide
  · decide

/-- C3 (amended): the mod.rs `simplify` is post-order only for `Sum`,
`Prod` and `Pow` nodes — every child of such a node in its output is a
`simplify` fixed point — while an `Ln`/`Sin`/`Cos`/`Arcsin`/`Arccos`/
`Arctan` node is returned untouched and a `Neg` node only gets the
negative-constant rule applied to its unsimplified child. -/
theorem C3_postorder_scope :
    (∀ a b c d : Lib.Expr, simplify (Pow a b) = Pow c d → simplify c = c ∧ simplify d = d)
    ∧ (∀ (v w : List Lib.Expr), simplify (Sum v) = Sum w → ∀ x ∈ w, simplify x = x)
    ∧ (∀ (v w : List Lib.Expr), simplify (Prod v) = Prod w → ∀ x ∈ w, simplify x = x)
    ∧ (∀ x : Lib.Expr, simplify (Ln x) = Ln x)
    ∧ (∀ x : Lib.Expr, simplify (Sin x) = Sin x)
    ∧ (∀ x : Lib.Expr, simplify (Cos x) = Cos x)
    ∧ (∀ x : Lib.Expr, simplify (Arcsin x) = Arcsin x)
    ∧ (∀ x : Lib.Expr, simplify (Arccos x) = Arccos x)
    ∧ (∀ x : Lib.Expr, simplify (Arctan x) = Arctan x)
    ∧ (∀ x : Lib.Expr, simplify (Neg x) = simplify_negative_consts (Neg x)) := by
  refine ⟨?_, ?_, ?_, fun x => rfl, fun x => rfl, fun x => rfl, fun x => rfl, fun x => rfl,
    fun x => rfl, fun x => by cases x <;> rfl⟩
  · intro a b c d h
    have hc := childrenFixed_simplify (Pow a b)
    rw [h] at hc
    exact hc
  · intro v w h
    have hc := childrenFixed_simplify (Sum v)
    rw [h] at hc
    exact hc
  · intro v w h
    have hc := childrenFixed_simplify (Prod v)
    rw [h] at hc
    exact hc

/-- C3 (witness): the amended post-order statement applied to concrete
inputs. -/
theorem C3_postorder_scope_witness :
    simplify Lib.Expr.X = Lib.Expr.X ∧ simplify (Const 5) = Const 5 :=
  C3_postorder_scope.1 X (Const 5) X (Const 5) rfl

/-- C4 (counterexample): the current mod.rs `simplify` performs no
like-term unification, so `simplify(Var + Var)` stays a two-element `Sum`
and differs from `simplify(Const(2) * Var)`. -/
theorem C4_modRs_no_like_terms :
    simplify (add X X) ≠ simplify (mul (Const 2) X) := by
  decide

/-- C5 (counterexample): both renderers read `v[0]` of a `Sum`/`Prod`, so
on an empty `Sum` or `Prod` they do not return a string (the access
panics, modelled by `none`). -/
theorem C5_to_latex_empty_fails :
    to_latex (Sum ([] : List Lib.Expr)) = none
    ∧ to_latex (Prod ([] : List Lib.Expr)) = none
    ∧ LRs.to_latex (Sum ([] : List Lib.Expr)) = none
    ∧ LRs.to_latex (Prod ([] : List Lib.Expr)) = none :=
  ⟨rfl, rfl, rfl, rfl⟩

/-- C5 (amended): to_latex is a pure recursive function that returns a
string on every expression in which each `Sum` and `Prod` node has at
least one child, in both the mod.rs and the latex.rs version. -/
theorem C5_to_latex_total_nonempty :
    (∀ e : Lib.Expr, nonemptySP e = true → ∃ s, to_latex e = some s)
    ∧ (∀ e : Lib.Expr, nonemptySP e = true → ∃ s, LRs.to_latex e = some s) :=
  ⟨to_latex_total_mod, to_latex_total_lrs⟩

/-- C5 (witness): totality applied to a concrete nonempty tree. -/
theorem C5_to_latex_total_witness :
    nonemptySP (Sum [X, Const 3]) = true
    ∧ (∃ s, to_latex (Sum [X, Const 3]) = some s)
    ∧ (∃ s, LRs.to_latex (Sum [X, Const 3]) = some s) :=
  ⟨rfl, C5_to_latex_total_nonempty.1 (Sum [X, Const 3]) rfl,
    C5_to_latex_total_nonempty.2 (Sum [X, Const 3]) rfl⟩

/-- C6 (counterexample): `simplify` does not descend below `Neg` (nor the
transcendental wrappers), so a `Sum` stored there keeps decreasing
children and the simplified tree is not everywhere sorted. -/
theorem C6_unsorted_below_neg :
    allSorted (simplify (Neg (Sum [X, Const 0]))) = false := by
  decide

/-- C6 (amended): after the mod.rs `simplify`, every `Sum`/`Prod` node
reachable from the root through `Sum`, `Prod` and `Pow` nodes only has its
children in non-decreasing canonical order. -/
theorem C6_spine_sorted (e : Lib.Expr) : spineSorted (simplify e) = true :=
  spineSorted_simplify e

/-- C7: division is multiplication by the reciprocal, where the reciprocal
of `Pow(x, y)` is `Pow(x, -y)` (with the constructor-level negation) and
the reciprocal of any non-`Pow` expression `e` is `Pow(e, Const(-1))`. -/
theorem C7_div_is_mul_recip :
    (∀ a b : Lib.Expr, div a b = mul a (recip b))
    ∧ (∀ x y : Lib.Expr, recip (Pow x y) = Pow x (neg y))
    ∧ (∀ e : Lib.Expr, (∀ x y, e ≠ Pow x y) → recip e = Pow e (Const (-1))) := by
  refine ⟨fun a b => rfl, fun x y => rfl, ?_⟩
  intro e h
  cases e <;> first | rfl | exact absurd rfl (h _ _)

/-- C7 (witness): the reciprocal laws at concrete inputs. -/
theorem C7_div_is_mul_recip_witness :
    div Lib.Expr.X (Const 2) = mul Lib.Expr.X (recip (Const 2))
    ∧ recip (Pow Lib.Expr.X (Const 2)) = Pow Lib.Expr.X (neg (Const 2))
    ∧ recip Lib.Expr.X = Pow Lib.Expr.X (Const (-1)) :=
  ⟨C7_div_is_mul_recip.1 X (Const 2), C7_div_is_mul_recip.2.1 X (Const 2),
    C7_div_is_mul_recip.2.2 X (by simp)⟩

/-- C8: evaluating both derivative versions at `Arcsin(X)` and
`Arccos(X)` (at any fuel of at least 9): the inverse-square-root factor's exponent is
`Const(1)/2 = Prod [Const 1, Pow (Const 2) (Const (-1))]`, which
represents `+1/2`, not the claimed `-1/2`; moreover the mod.rs base is
`Neg(Sum [Prod [X, X], Const 1])`, i.e. `-(x^2+1)` rather than `1-x^2`
(only derivative.rs builds the claimed base
`Sum [Const 1, Neg (Pow X (Const 2))]`). -/
theorem C8_arcsin_arccos_eval (n : Nat) :
    DRs.derivative (n + 9) (Arcsin X)
        = some (Prod [Pow (Sum [Const 1, Neg (Pow X (Const 2))])
            (Prod [Const 1, Pow (Const 2) (Const (-1))]), Const 1])
    ∧ DRs.derivative (n + 9) (Arccos X)
        = some (Prod [Neg (Pow (Sum [Const 1, Neg (Pow X (Const 2))])
            (Prod [Const 1, Pow (Const 2) (Const (-1))])), Const 1])
    ∧ derivative (n + 9) (Arcsin X)
        = some (Prod [Const 1, Pow (Neg (Sum [Prod [X, X], Const 1]))
            (Prod [Const 1, Pow (Const 2) (Const (-1))])])
    ∧ derivative (n + 9) (Arccos X)
        = some (Prod [Const 1, Neg (Pow (Neg (Sum [Prod [X, X], Const 1]))
            (Prod [Const 1, Pow (Const 2) (Const (-1))]))]) :=
  ⟨rfl, rfl, rfl, rfl⟩

/-- C10: the `Add`/`Mul` constructor flattening inspects only the left
operand: a non-`Sum` plus a `Sum` nests the right operand as a single
child, and likewise for products. -/
theorem C10_flatten_left_only (a : Lib.Expr) (v w : List Lib.Expr) :
    ((∀ u, a ≠ Sum u) → add a (Sum v) = Sum [a, Sum v])
    ∧ ((∀ u, a ≠ Prod u) → mul a (Prod w) = Prod [a, Prod w]) := by
  constructor
  · intro h
    cases a <;> first | rfl | exact absurd rfl (h _)
  · intro h
    cases a <;> first | rfl | exact absurd rfl (h _)

/-- C10 (witness): nesting at concrete inputs. -/
theorem C10_flatten_left_only_witness :
    add Lib.Expr.X (Sum [Lib.Expr.X]) = Sum [Lib.Expr.X, Sum [Lib.Expr.X]]
    ∧ mul Lib.Expr.X (Prod [Lib.Expr.X]) = Prod [Lib.Expr.X, Prod [Lib.Expr.X]] :=
  ⟨(C10_flatten_left_only X [X] [X]).1 (by simp),
    (C10_flatten_left_only X [X] [X]).2 (by simp)⟩

end ClaimsOnCurrentGeneration

section ClaimsOnOldGeneration

open LibOld.Expr

/-- C2 (counterexample): the lib.rs `simplify` is not idempotent.  On
`Sum [Recip (Const 2), Recip (Const 2)]` the like-term rule builds
`Prod [Const 2, Recip (Const 2)]` after the `Prod` rules have already run,
and a second `simplify` cancels that product to `Const 1` (shown at two
fuel levels; the fuel only bounds the recursion depth). -/
theorem C2_libRs_simplify_not_idempotent :
    simplify 16 (Sum [Recip (Const 2), Recip (Const 2)])
        = some (Prod [Const 2, Recip (Const 2)])
    ∧ simplify 16 (Prod [Const 2, Recip (Const 2)]) = some (Const 1)
    ∧ simplify 30 (Sum [Recip (Const 2), Recip (Const 2)])
        = some (Prod [Const 2, Recip (Const 2)])
    ∧ simplify 30 (Prod [Const 2, Recip (Const 2)]) = some (Const 1)
    ∧ Prod [Const 2, Recip (Const 2)] ≠ Const 1 :=
  ⟨rfl, rfl, rfl, rfl, by decide⟩

/-- C4 (amended): like-term unification holds for the lib.rs `simplify`
(the version that owns `simplify_apply_sums` and `add_like_term`):
`simplify(Var + Var)` equals `simplify(Const(2) * Var)` and
`simplify(Const(2)*Var + Const(3)*Var)` equals `simplify(Const(5)*Var)`. -/
theorem C4_libRs_like_terms (n : Nat) :
    simplify (n + 16) (add X X) = some (Prod [Const 2, X])
    ∧ simplify (n + 16) (mul (Const 2) X) = some (Prod [Const 2, X])
    ∧ simplify (n + 16) (add (mul (Const 2) X) (mul (Const 3) X)) = some (Prod [Const 5, X])
    ∧ simplify (n + 16) (mul (Const 5) X) = some (Prod [Const 5, X]) :=
  ⟨rfl, rfl, rfl, rfl⟩

/-- C9: coefficient arithmetic is unchecked `isize` arithmetic.  In a
release build, folding the constant factors of a product wraps modulo
`2^64` with no reported failure: the general law shows the wrap, and at
`(2^63-1) * 2` the stored coefficient is `-2`, not the true product.  The
negative-constant rule of mod.rs likewise wraps `-(−2^63)` back to
`−2^63` silently. -/
theorem C9_overflow_wraps :
    (∀ a b : Int, simplify_mult_consts (Prod [Const a, Const b])
        = Prod [Const (wrapI (a * b))])
    ∧ (∀ a b : Int, add_like_term (Const a) (Const b) = Const (wrapI (a + b)))
    ∧ simplify_mult_consts (Prod [Const (2 ^ 63 - 1), Const 2, X])
        = Prod [Const (-2), X]
    ∧ (2 ^ 63 - 1 : Int) * 2 ≠ (-2 : Int)
    ∧ Lib.Expr.simplify (Lib.Expr.Neg (Lib.Expr.Const (-(2 ^ 63))))
        = Lib.Expr.Const (-(2 ^ 63)) :=
  ⟨fun a b => rfl, fun a b => rfl, by decide, by decide, by decide⟩

end ClaimsOnOldGeneration

end MathProgram
